import Mathlib

/-!
# PaperPlain — verification of the paper-acquisition and summarization pipeline

Shallow embedding of the JavaScript source of the PaperPlain repository
(`server.js`, `services/pubmed.js`, `services/semanticscholar.js`, the
Crossref service) into Lean 4, together with theorems settling the claims
about the Identifier Normalizer, the Source Fetchers, the Summarizer, the
Q&A source scorer and the PDF extraction route.

JavaScript strings are modelled as `List Char`.  `String.prototype.length`
and `slice` count UTF-16 code units; on the Basic Multilingual Plane (one
code unit per code point, which covers every string manipulated here) this
agrees with `List.length` / `List.take`.  `toLowerCase` is modelled on the
ASCII range (`Char.toLower`), which is exact for every character class the
code distinguishes (`[a-z0-9-]`, `[A-Z]`, digits, whitespace).
-/

namespace PaperPlain

/-- The `String.data` of a Lean literal, used to write concrete JS strings. -/
def jsStr (s : String) : List Char := s.data

/-- The ECMAScript `\s` character class (`WhiteSpace ∪ LineTerminator`),
which is also the set of characters removed by `String.prototype.trim`. -/
def isJsWs (c : Char) : Bool :=
  c == ' ' || c == '\t' || c == '\n' || c == '\r' || c == '\x0b' || c == '\x0c' ||
  c.val == 0x00A0 || c.val == 0x1680 || (0x2000 ≤ c.val && c.val ≤ 0x200A) ||
  c.val == 0x2028 || c.val == 0x2029 || c.val == 0x202F || c.val == 0x205F ||
  c.val == 0x3000 || c.val == 0xFEFF

/-- ECMAScript line terminators (the characters after which a multiline `^`
anchor matches). -/
def isLineTerm (c : Char) : Bool :=
  c == '\n' || c == '\r' || c.val == 0x2028 || c.val == 0x2029

/-- The ECMAScript `\w` class `[A-Za-z0-9_]` (used by `\b` boundaries). -/
def isWordChar (c : Char) : Bool :=
  c.isAlpha || c.isDigit || c == '_'

/-- Embeds `String.prototype.trimEnd`. -/
def jsTrimEnd (l : List Char) : List Char :=
  (l.reverse.dropWhile isJsWs).reverse

/-- Embeds `String.prototype.trim`: drop JS whitespace from both ends. -/
def jsTrim (l : List Char) : List Char :=
  jsTrimEnd (l.dropWhile isJsWs)

/-- Scanning loop of the global regex replace `.replace(/\s+/g, " ")`: the
state records whether the previous character was whitespace (in which case
the current whitespace character belongs to an already-replaced run). -/
def collapseWsGo : Bool → List Char → List Char
  | _, [] => []
  | prevWs, c :: rest =>
    if isJsWs c then
      if prevWs then collapseWsGo true rest
      else ' ' :: collapseWsGo true rest
    else c :: collapseWsGo false rest

/-- Global regex replace `.replace(/\s+/g, " ")`: every maximal run of JS
whitespace becomes a single space. -/
def collapseWs (l : List Char) : List Char := collapseWsGo false l

/-- Global regex replace `.replace(/<[^>]+>/g, "")` (Crossref abstract
cleaning): each leftmost match `<`, one-or-more non-`>` characters, `>` is
removed and scanning resumes after the match.  At a `<` with no such match
(nothing before the next `>`, or no `>` at all) the engine emits the `<`
and moves one character forward. -/
def stripTagsF : Nat → List Char → List Char
  | 0, _ => []
  | _, [] => []
  | fuel + 1, c :: rest =>
    if c = '<' then
      if (rest.takeWhile (· ≠ '>')).isEmpty
          || (rest.takeWhile (· ≠ '>')).length = rest.length then
        c :: stripTagsF fuel rest
      else
        stripTagsF fuel (rest.drop ((rest.takeWhile (· ≠ '>')).length + 1))
    else c :: stripTagsF fuel rest

/-- The scan of `stripTagsF` with enough fuel (each step consumes at least
one character, so `l.length` steps always complete the scan). -/
def stripTags (l : List Char) : List Char := stripTagsF l.length l

/-- Global replace `.replace(/\n\n/g, " ")` (PubMed abstract cleaning):
non-overlapping pairs of newlines, found left to right, become one space. -/
def replaceNN : List Char → List Char
  | '\n' :: '\n' :: rest => ' ' :: replaceNN rest
  | c :: rest => c :: replaceNN rest
  | [] => []

/-- Anchored non-global replace `.replace(/^Abstract\n/, "")` (PubMed):
drop a literal `Abstract\n` if the text starts with it. -/
def stripAbstractLabel (l : List Char) : List Char :=
  if (jsStr "Abstract\n").isPrefixOf l then l.drop 9 else l

/-- Global replace `.replace(/\r\n/g, "\n")`. -/
def replaceCRLF : List Char → List Char
  | '\r' :: '\n' :: rest => '\n' :: replaceCRLF rest
  | c :: rest => c :: replaceCRLF rest
  | [] => []

/-- Scanner for two adjacent JS-whitespace characters: `true` iff the string
contains a whitespace run longer than one character. -/
def hasDoubleWs : List Char → Bool
  | a :: b :: rest => (isJsWs a && isJsWs b) || hasDoubleWs (b :: rest)
  | _ => false

/-- Embeds `RegExp.prototype.test` of `/<[^>]+>/`: `true` iff the string contains a
complete tag span (a `<`, at least one non-`>` character, then `>`). -/
def containsTagB : List Char → Bool
  | [] => false
  | c :: rest =>
    (c == '<' && !(rest.takeWhile (· ≠ '>')).isEmpty
      && decide ((rest.takeWhile (· ≠ '>')).length < rest.length))
    || containsTagB rest

/-! ## Source Fetcher abstract cleaning

Each definition embeds the abstract-producing expression of one fetcher.
-/

/-- From `fetchArxivPaper` (server.js): `entry.summary[0].trim().replace(/\s+/g, " ")`. -/
def arxivAbstract (summary : List Char) : List Char :=
  collapseWs (jsTrim summary)

/-- From `fetchPaperByDOI` (Crossref service):
`work.abstract.replace(/<[^>]+>/g, "").replace(/\s+/g, " ").trim()`. -/
def crossrefAbstract (abstract : List Char) : List Char :=
  jsTrim (collapseWs (stripTags abstract))

/-- From `fetchPaperByPMID` (services/pubmed.js):
`text.replace(/^Abstract\n/, "").replace(/\n\n/g, " ").trim()`. -/
def pubmedAbstract (text : List Char) : List Char :=
  jsTrim (replaceNN (stripAbstractLabel text))

/-! ## Source Fetcher error mapping

Each definition embeds the `!response.ok` branch of one fetcher as a map
from the upstream HTTP status to the thrown error message (`none` = the
fetcher proceeds past the status check).  `Response.ok` is
`200 ≤ status ≤ 299`. -/

/-- Embeds `Response.ok` of `fetch`. -/
def httpOk (status : Nat) : Bool := 200 ≤ status && status ≤ 299

/-- From `fetchPaperByDOI` (Crossref): `if (!response.ok) { if (404) throw
'DOI not found'; throw \`Crossref API error: STATUS\` }`. -/
def crossrefFetchError (status : Nat) : Option (List Char) :=
  if httpOk status then none
  else if status = 404 then some (jsStr "DOI not found")
  else some (jsStr "Crossref API error: " ++ (toString status).data)

/-- From `fetchPaper` (services/semanticscholar.js): `if (!response.ok) { if (404)
throw 'Paper not found'; throw \`Semantic Scholar API error: STATUS\` }`. -/
def semanticScholarFetchError (status : Nat) : Option (List Char) :=
  if httpOk status then none
  else if status = 404 then some (jsStr "Paper not found")
  else some (jsStr "Semantic Scholar API error: " ++ (toString status).data)

/-- From `fetchPaperByPMID` (services/pubmed.js): `if (!summaryRes.ok) throw new
Error('PubMed API error')` — no status in the message, 404 not special. -/
def pubmedFetchError (status : Nat) : Option (List Char) :=
  if httpOk status then none
  else some (jsStr "PubMed API error")

/-- Substring test (`String.prototype.includes`). -/
def containsSub (needle hay : List Char) : Bool :=
  decide (needle <:+: hay)

/-! ## Identifier Normalizer — `extractArxivId` (server.js)

The extractor tries three patterns in order and returns the first capture:
`/arxiv\.org\/abs\/([0-9.]+)/`, `/arxiv\.org\/pdf\/([0-9.]+)/`,
`/([0-9]{4}\.[0-9]{4,5})/`; if none matches it throws
`"Invalid ArXiv URL format"` (modelled as `none`). -/

/-- The regex class `[0-9.]`. -/
def isDigitOrDot (c : Char) : Bool := c.isDigit || c == '.'

/-- Match a literal regex fragment at the current position, returning the
remainder on success. -/
def matchLit : List Char → List Char → Option (List Char)
  | [], s => some s
  | _ :: _, [] => none
  | a :: as, b :: bs => if a = b then matchLit as bs else none

/-- Leftmost match of `LITERAL([0-9.]+)`: scan positions left to right; at
each position the literal must match and be followed by a nonempty run of
`[0-9.]`, which (being greedy with nothing after it) is the maximal run;
otherwise the engine advances one position. -/
def scanLitCapture (lit : List Char) : List Char → Option (List Char)
  | [] => none
  | s@(_ :: rest) =>
    match matchLit lit s with
    | some r =>
      if (r.takeWhile isDigitOrDot).isEmpty then scanLitCapture lit rest
      else some (r.takeWhile isDigitOrDot)
    | none => scanLitCapture lit rest

/-- Match `[0-9]{4}\.[0-9]{4,5}` at the current position: four digits, a
dot, then greedily up to five but at least four digits. -/
def bareArxivAt : List Char → Option (List Char)
  | a :: b :: c :: d :: '.' :: rest =>
    if a.isDigit && b.isDigit && c.isDigit && d.isDigit then
      if 4 ≤ ((rest.takeWhile Char.isDigit).take 5).length then
        some ([a, b, c, d, '.'] ++ (rest.takeWhile Char.isDigit).take 5)
      else none
    else none
  | _ => none

/-- Leftmost match of the bare-id pattern `([0-9]{4}\.[0-9]{4,5})`. -/
def scanBare : List Char → Option (List Char)
  | [] => none
  | s@(_ :: rest) =>
    match bareArxivAt s with
    | some r => some r
    | none => scanBare rest

/-- The literal part of the first pattern. -/
def absLit : List Char := jsStr "arxiv.org/abs/"

/-- The literal part of the second pattern. -/
def pdfLit : List Char := jsStr "arxiv.org/pdf/"

/-- Embeds `extractArxivId` (server.js): first pattern that matches wins;
`none` models the thrown `"Invalid ArXiv URL format"`. -/
def extractArxivId (url : List Char) : Option (List Char) :=
  match scanLitCapture absLit url with
  | some r => some r
  | none =>
    match scanLitCapture pdfLit url with
    | some r => some r
    | none => scanBare url

/-- Strings that the code's bare-id pattern matches in full: four digits, a
dot, then four or five digits. -/
def isBareArxivId : List Char → Bool
  | a :: b :: c :: d :: '.' :: rest =>
    a.isDigit && b.isDigit && c.isDigit && d.isDigit &&
      rest.all Char.isDigit && (rest.length = 4 || rest.length = 5)
  | _ => false

/-- The input contains, anywhere, four digits, a period, and four digits
(hence also any input containing four digits, a period, and four *or five*
digits). -/
def HasBareSub (s : List Char) : Prop :=
  ∃ pre a b c d e f g h post,
    s = pre ++ [a, b, c, d, '.', e, f, g, h] ++ post ∧
    (a.isDigit && b.isDigit && c.isDigit && d.isDigit &&
      e.isDigit && f.isDigit && g.isDigit && h.isDigit) = true

/-! ## Q&A source scorer — `tokenizeForQa` and `buildQaSources` (server.js) -/

/-- Character kept by the replace `/[^a-z0-9\s-]/g → " "` (after
lowercasing): lowercase letter, digit, JS whitespace, or a hyphen. -/
def isQaKeptChar (c : Char) : Bool :=
  (decide ('a' ≤ c) && decide (c ≤ 'z')) || c.isDigit || isJsWs c || c == '-'

/-- Embeds `tokenizeForQa` (server.js): lowercase, replace every character
outside `[a-z0-9\s-]` by a space, split on whitespace (`split(/\s+/)`
differs from `splitOnP` only in empty-string pieces, which the length
filter removes), keep tokens of length at least three. -/
def tokenizeForQa (text : List Char) : List (List Char) :=
  (((text.map Char.toLower).map
      (fun c => if isQaKeptChar c then c else ' ')).splitOnP isJsWs).filter
    (fun t => 3 ≤ t.length)

/-- Split on newlines (`split(/\n+/)` differs from `splitOnP` only in
empty-string pieces, which the `filter(Boolean)` after trimming removes). -/
def splitNlRuns (l : List Char) : List (List Char) :=
  l.splitOnP (· == '\n')

/-- Sentence-ending punctuation of the lookbehind `(?<=[.!?])`. -/
def isStopPunct (c : Char) : Bool := c == '.' || c == '!' || c == '?'

/-- Embeds `split(/(?<=[.!?])\s+/g)`: the separators are exactly the maximal
whitespace runs whose preceding character is `.`, `!` or `?` (a match cannot
start inside a run, since there the preceding character is whitespace). -/
def splitSentencesF : Nat → List Char → List (List Char)
  | 0, _ => [[]]
  | _, [] => [[]]
  | fuel + 1, c :: rest =>
    if isStopPunct c && !(rest.takeWhile isJsWs).isEmpty then
      [c] :: splitSentencesF fuel (rest.dropWhile isJsWs)
    else
      match splitSentencesF fuel rest with
      | [] => [[c]]
      | p :: ps => (c :: p) :: ps

/-- The scan of `splitSentencesF` with enough fuel (each step consumes at
least one character). -/
def splitSentences (l : List Char) : List (List Char) := splitSentencesF l.length l

/-- The `paper` argument of `buildQaSources`: `none` models a field whose
`typeof` is not `"string"`. -/
structure QaPaper where
  abstract : Option (List Char)
  summary : Option (List Char)

/-- One entry of the candidate pool. -/
structure QaCandidate where
  label : List Char
  text : List Char
deriving DecidableEq

/-- The candidate pool of `buildQaSources`: the trimmed abstract as one
unit when nonempty, then the trimmed summary split on blank lines, each
line split on sentence boundaries and trimmed, keeping parts of at least
40 characters. -/
def candidatesOf (p : QaPaper) : List QaCandidate :=
  (match p.abstract with
    | some a => if jsTrim a ≠ [] then [⟨jsStr "Abstract", jsTrim a⟩] else []
    | none => []) ++
  (match p.summary with
    | some s0 =>
      if jsTrim s0 ≠ [] then
        (((((splitNlRuns (jsTrim s0)).map jsTrim).filter (· ≠ [])).flatMap
            (fun line => (splitSentences line).map jsTrim)).filter
          (fun part => 40 ≤ part.length)).map
          (fun part => ⟨jsStr "Summary", part⟩)
      else []
    | none => [])

/-- A candidate together with its scoring data: `overlap` is the number of
its tokens (with multiplicity) that occur among the question tokens, and
`tokenCount` the number of its tokens.  The JS float score is
`overlap / Math.max(8, Math.sqrt(tokenCount))`; since
`max 8 (sqrt n) = sqrt (max 64 n)` and all quantities are nonnegative, the
score order embeds exactly as the cross-multiplied-squares order on these
two naturals (certified by the claim-C6 theorem below). -/
structure ScoredCand where
  cand : QaCandidate
  overlap : Nat
  tokenCount : Nat
deriving DecidableEq

/-- The per-candidate scoring loop of `buildQaSources`. -/
def scoreCand (qtokens : List (List Char)) (c : QaCandidate) : ScoredCand :=
  ⟨c, ((tokenizeForQa c.text).filter (fun t => qtokens.contains t)).length,
    (tokenizeForQa c.text).length⟩

/-- Exact comparison `score x ≥ score y` of the JS float scores
`overlap / max(8, sqrt(tokenCount))`. -/
def scoreGeB (x y : ScoredCand) : Bool :=
  decide (y.overlap ^ 2 * max 64 x.tokenCount ≤ x.overlap ^ 2 * max 64 y.tokenCount)

/-- Stable insertion of one element into a descending-by-score list. -/
def insertScoredDesc (x : ScoredCand) : List ScoredCand → List ScoredCand
  | [] => [x]
  | y :: ys => if scoreGeB x y then x :: y :: ys else y :: insertScoredDesc x ys

/-- Stable descending sort by score, the order produced by the stable
`Array.prototype.sort((a, b) => b.score - a.score)`. -/
def sortScoredDesc : List ScoredCand → List ScoredCand
  | [] => []
  | x :: xs => insertScoredDesc x (sortScoredDesc xs)

/-- Scored, filtered (`score > 0`, i.e. `overlap > 0`) and sorted candidate
list of `buildQaSources`. -/
def scoredCandidates (question : List Char) (p : QaPaper) : List ScoredCand :=
  sortScoredDesc
    (((candidatesOf p).map (scoreCand (tokenizeForQa question))).filter
      (fun sc => 0 < sc.overlap))

/-- One output entry of `buildQaSources`. -/
structure QaSource where
  label : List Char
  text : List Char
deriving DecidableEq

/-- The dedup key: `item.text.toLowerCase().replace(/\s+/g, " ")`. -/
def normForDedup (t : List Char) : List Char :=
  collapseWs (t.map Char.toLower)

/-- The output-text truncation:
`text.length > 220 ? text.slice(0, 217).trimEnd() + "…" : text`. -/
def truncateQaText (t : List Char) : List Char :=
  if 220 < t.length then jsTrimEnd (t.take 217) ++ ['…'] else t

/-- The selection loop of `buildQaSources`: skip candidates whose dedup key
was seen, emit the truncated text, stop after three entries (`slots` is
`3 - out.length`). -/
def pickLoop : List ScoredCand → List (List Char) → Nat → List QaSource
  | [], _, _ => []
  | it :: rest, seen, slots =>
    if slots = 0 then []
    else if seen.contains (normForDedup it.cand.text) then pickLoop rest seen slots
    else ⟨it.cand.label, truncateQaText it.cand.text⟩
      :: pickLoop rest (normForDedup it.cand.text :: seen) (slots - 1)

/-- The same loop, returning the chosen candidates before truncation. -/
def pickLoopCands : List ScoredCand → List (List Char) → Nat → List ScoredCand
  | [], _, _ => []
  | it :: rest, seen, slots =>
    if slots = 0 then []
    else if seen.contains (normForDedup it.cand.text) then pickLoopCands rest seen slots
    else it :: pickLoopCands rest (normForDedup it.cand.text :: seen) (slots - 1)

/-- Embeds `buildQaSources` (server.js). -/
def buildQaSources (question : List Char) (p : QaPaper) : List QaSource :=
  if (tokenizeForQa question).isEmpty then []
  else pickLoop (scoredCandidates question p) [] 3

/-- The candidates chosen by `buildQaSources` (pre-truncation view). -/
def pickedCandidates (question : List Char) (p : QaPaper) : List ScoredCand :=
  if (tokenizeForQa question).isEmpty then []
  else pickLoopCands (scoredCandidates question p) [] 3

/-! ## Summarizer — `simplifyPaper` (server.js)

The two LLM calls are modelled as oracle outcomes (`Except`): the first
call's result and the conditional Key-Terms repair call's result.  The
whole body sits inside one `try`, whose `catch` rethrows
`Failed to generate summary: MESSAGE`. -/

/-- Case-insensitive literal match (regex `i` flag, pattern letters given
in lowercase). -/
def matchCI : List Char → List Char → Option (List Char)
  | [], s => some s
  | _ :: _, [] => none
  | a :: as, b :: bs => if a = b.toLower then matchCI as bs else none

/-- Match `Key\s*Terms\b` starting at the current position (the `\b` before
`Key` is checked by the caller). -/
def keyTermsHereB (l : List Char) : Bool :=
  match matchCI (jsStr "key") l with
  | none => false
  | some r1 =>
    match matchCI (jsStr "terms") (r1.dropWhile isJsWs) with
    | none => false
    | some r3 =>
      match r3 with
      | [] => true
      | d :: _ => !isWordChar d

/-- Scan for `/\bKey\s*Terms\b/i`; the accumulator records whether the
previous character allows a `\b` boundary before `Key`. -/
def testKeyTermsGo : Bool → List Char → Bool
  | _, [] => false
  | prevOk, c :: rest =>
    (prevOk && keyTermsHereB (c :: rest)) || testKeyTermsGo (!isWordChar c) rest

/-- Embeds `/\bKey\s*Terms\b/i.test(text)`. -/
def testKeyTerms (l : List Char) : Bool := testKeyTermsGo true l

/-- Consume the tail `\s*(\*\*)?` of the heading pattern after the colon,
returning the remainder and whether the last consumed character is a line
terminator (which decides whether the next scan position is a line start). -/
def ktAfterColon (r5 : List Char) : List Char × Bool :=
  if (r5.dropWhile isJsWs).take 2 = jsStr "**" then ((r5.dropWhile isJsWs).drop 2, false)
  else if r5.takeWhile isJsWs = [] then (r5, false)
  else (r5.dropWhile isJsWs, isLineTerm (((r5.takeWhile isJsWs).getLast?).getD ' '))

/-- Match `(\*\*\s*)?Key\s*Terms\s*:\s*(\*\*)?` (case-insensitively) at a
line-start position.  Every inner `\s*` is greedy and, being followed by a
non-whitespace requirement, can only consume the full whitespace run; the
leading group, when the text starts with `**`, must be taken (the
group-absent alternative would need `K` where the `*` stands). -/
def matchKTCore (s : List Char) : Option (List Char × Bool) :=
  (matchCI (jsStr "key") s).bind fun r1 =>
    (matchCI (jsStr "terms") (r1.dropWhile isJsWs)).bind fun r3 =>
      if (r3.dropWhile isJsWs).head? = some ':' then
        some (ktAfterColon ((r3.dropWhile isJsWs).tail))
      else none

/-- The full heading pattern including the optional leading `**`. -/
def matchKT (l : List Char) : Option (List Char × Bool) :=
  if l.take 2 = jsStr "**" then matchKTCore ((l.drop 2).dropWhile isJsWs)
  else matchKTCore l

theorem matchCI_length :
    ∀ lit s r, matchCI lit s = some r → r.length + lit.length = s.length := by
  intro lit
  induction lit with
  | nil => intro s r h; simp [matchCI] at h; simp [h]
  | cons a as ih =>
    intro s r h
    match s with
    | [] => simp [matchCI] at h
    | b :: bs =>
      simp only [matchCI] at h
      split at h
      · have := ih bs r h
        simp only [List.length_cons]
        omega
      · exact absurd h (by simp)

theorem ktAfterColon_le (r5 : List Char) : (ktAfterColon r5).1.length ≤ r5.length := by
  have hdw : (r5.dropWhile isJsWs).length ≤ r5.length := (List.dropWhile_sublist _).length_le
  have hdr : ((r5.dropWhile isJsWs).drop 2).length ≤ (r5.dropWhile isJsWs).length :=
    (List.drop_sublist _ _).length_le
  unfold ktAfterColon
  split
  · simpa using le_trans hdr hdw
  · split
    · exact le_refl _
    · simpa using hdw

theorem matchKTCore_lt (s : List Char) (r : List Char) (b : Bool)
    (h : matchKTCore s = some (r, b)) : r.length < s.length := by
  unfold matchKTCore at h
  cases h1 : matchCI (jsStr "key") s with
  | none => simp [h1] at h
  | some r1 =>
    rw [h1] at h
    rw [show ∀ (a : List Char) (f : List Char → Option (List Char × Bool)),
        (some a).bind f = f a from fun _ _ => rfl] at h
    cases h2 : matchCI (jsStr "terms") (r1.dropWhile isJsWs) with
    | none => simp [h2] at h
    | some r3 =>
      rw [h2] at h
      rw [show ∀ (a : List Char) (f : List Char → Option (List Char × Bool)),
        (some a).bind f = f a from fun _ _ => rfl] at h
      split at h
      · next hcol =>
        have hrb : (ktAfterColon ((r3.dropWhile isJsWs).tail)).1 = r := by
          injection h with h0
          rw [h0]
        have e1 := matchCI_length _ _ _ h1
        have e2 := matchCI_length _ _ _ h2
        have d1 : (r1.dropWhile isJsWs).length ≤ r1.length :=
          (List.dropWhile_sublist _).length_le
        have d2 : (r3.dropWhile isJsWs).length ≤ r3.length :=
          (List.dropWhile_sublist _).length_le
        have d3 : 1 ≤ (r3.dropWhile isJsWs).length := by
          cases h3 : r3.dropWhile isJsWs with
          | nil => rw [h3] at hcol; simp at hcol
          | cons c cs => simp
        have d4 := ktAfterColon_le ((r3.dropWhile isJsWs).tail)
        rw [hrb] at d4
        have d5 : ((r3.dropWhile isJsWs).tail).length = (r3.dropWhile isJsWs).length - 1 :=
          List.length_tail _
        simp only [jsStr, String.data] at e1 e2
        simp only [List.length_cons] at e1 e2
        omega
      · simp at h

theorem matchKT_lt (l r : List Char) (b : Bool)
    (h : matchKT l = some (r, b)) : r.length < l.length := by
  unfold matchKT at h
  split at h
  · next htake =>
    have h1 := matchKTCore_lt _ _ _ h
    have h2 : ((l.drop 2).dropWhile isJsWs).length ≤ (l.drop 2).length :=
      (List.dropWhile_sublist _).length_le
    have h3 : (l.drop 2).length ≤ l.length := (List.drop_sublist _ _).length_le
    omega
  · exact matchKTCore_lt _ _ _ h

/-- The scanning loop of the global multiline replace
`.replace(/^(\*\*\s*)?Key\s*Terms\s*:\s*(\*\*)?/gim, "**Key Terms:**")`:
at every line-start position try the heading pattern; on a match emit the
canonical heading and resume after the match (a fresh line start exactly
when the match's last character is a line terminator). -/
def normKTGoF : Nat → Bool → List Char → List Char
  | 0, _, l => l
  | _, _, [] => []
  | fuel + 1, atStart, c :: rest =>
    if atStart then
      match matchKT (c :: rest) with
      | some (r, nl) => jsStr "**Key Terms:**" ++ normKTGoF fuel nl r
      | none => c :: normKTGoF fuel (isLineTerm c) rest
    else c :: normKTGoF fuel (isLineTerm c) rest

/-- Embeds the Key-Terms heading normalization of `simplifyPaper`.  Fuel
`l.length` always completes the scan: a heading match consumes at least one
character (`matchKT_lt`), and every other step exactly one. -/
def normalizeKT (l : List Char) : List Char := normKTGoF l.length true l

/-- Embeds `simplifyPaper` (server.js): the first LLM call's trimmed,
heading-normalized text; a conditional repair call when no
`/\bKey\s*Terms\b/i` occurs; any throw inside the `try` (first *or* repair
call) is rethrown as `Failed to generate summary: MESSAGE`.  Returns the
result together with the number of LLM calls attempted. -/
def simplifyPaperRun (first repair : Except (List Char) (List Char)) :
    Except (List Char) (List Char) × Nat :=
  match first with
  | .error e => (.error (jsStr "Failed to generate summary: " ++ e), 1)
  | .ok raw =>
    let text := normalizeKT (jsTrim raw)
    if testKeyTerms text then (.ok text, 1)
    else
      match repair with
      | .error e => (.error (jsStr "Failed to generate summary: " ++ e), 2)
      | .ok kraw =>
        let ktext := normalizeKT (jsTrim kraw)
        (.ok (if ktext ≠ [] then jsTrim (text ++ jsStr "\n\n" ++ ktext) else text), 2)

/-- The summary styles of the spec's style table. -/
inductive SummaryStyle
  | simple
  | detailed
  | technical
  | tldr
deriving DecidableEq

/-- Modelled from the spec: the style-aware Summarizer of spec §4.4 (the
`simplifyPaper(paperData, style)` described by the style table, the
CHANGELOG's "Summary Styles" feature and the design document; the
`simplifyPaper` shipped in `src/server.js` takes no style argument).  Per
the spec, the repair call is issued for every style except `tldr` exactly
when the normalized first response contains no recognizable Key Terms
heading; the error path follows the spec's failure semantics (any LLM
invocation failure fails the whole call with the `SummarizationFailed`
message).  Returns the result and whether the repair call was issued. -/
def simplifyPaperStyledRun (style : SummaryStyle) (first repair : Except (List Char) (List Char)) :
    Except (List Char) (List Char) × Bool :=
  match first with
  | .error e => (.error (jsStr "Failed to generate summary: " ++ e), false)
  | .ok raw =>
    let text := normalizeKT (jsTrim raw)
    if !(style == .tldr) && !testKeyTerms text then
      match repair with
      | .error e => (.error (jsStr "Failed to generate summary: " ++ e), true)
      | .ok kraw =>
        let ktext := normalizeKT (jsTrim kraw)
        (.ok (if ktext ≠ [] then jsTrim (text ++ jsStr "\n\n" ++ ktext) else text), true)
    else (.ok text, false)

/-! ## PDF Extractor — `POST /api/simplify/pdf` (server.js)

The route is modelled from the parsed PDF text onward.  LLM outcomes are
oracle parameters; `llmCalls` counts attempted LLM invocations. -/

/-- Embeds `clampText` (server.js): `(value || "").toString().trim().slice(0, maxLen)`. -/
def clampText (value : List Char) (maxLen : Nat) : List Char :=
  (jsTrim value).take maxLen

/-- Scan for the first suffix satisfying a position predicate
(`String.prototype.search` returning the matched suffix). -/
def findSuffix (pred : List Char → Bool) : List Char → Option (List Char)
  | [] => none
  | s@(_ :: rest) => if pred s then some s else findSuffix pred rest

/-- Scan for the index of the first position satisfying a position
predicate (`String.prototype.search` returning the match index). -/
def searchIdxB (pred : List Char → Bool) : List Char → Option Nat
  | [] => none
  | s@(_ :: rest) => if pred s then some 0 else (searchIdxB pred rest).map (· + 1)

/-- Position match of `/\n\s*abstract\s*\n|\n\s*abstract\s*:/i`: a newline,
whitespace, `abstract`, then either a whitespace run containing a newline
(the greedy `\s*` backtracks to the last newline of the run) or a
whitespace run followed by a colon. -/
def absHeadAt (l : List Char) : Bool :=
  match l with
  | '\n' :: r =>
    match matchCI (jsStr "abstract") (r.dropWhile isJsWs) with
    | none => false
    | some r2 =>
      (r2.takeWhile isJsWs).contains '\n' || (r2.dropWhile isJsWs).head? == some ':'
  | _ => false

/-- Boundary `\b` following a word character: next char absent or non-word. -/
def wordBoundaryOk : List Char → Bool
  | [] => true
  | d :: _ => !isWordChar d

/-- Case-insensitive literal then `\b`. -/
def litThenBoundary (lit : List Char) (l : List Char) : Bool :=
  match matchCI lit l with
  | some r => wordBoundaryOk r
  | none => false

/-- Tail `\s*\.\s*introduction\b` of the numbered/roman introduction
alternatives. -/
def dotIntroAfter (r2 : List Char) : Bool :=
  (r2.dropWhile isJsWs).head? == some '.' &&
    litThenBoundary (jsStr "introduction") (((r2.dropWhile isJsWs).tail).dropWhile isJsWs)

/-- Position match of the stop-heading regex
`/\n\s*(?:keywords?|index terms|introduction|1\s*\.\s*introduction|i\s*\.\s*introduction|contents)\b/i`. -/
def stopHeadAt (l : List Char) : Bool :=
  match l with
  | '\n' :: r =>
    let r1 := r.dropWhile isJsWs
    litThenBoundary (jsStr "keywords") r1 || litThenBoundary (jsStr "keyword") r1 ||
    litThenBoundary (jsStr "index terms") r1 || litThenBoundary (jsStr "introduction") r1 ||
    (r1.head? == some '1' && dotIntroAfter r1.tail) ||
    ((r1.head?.map Char.toLower) == some 'i' && dotIntroAfter r1.tail) ||
    litThenBoundary (jsStr "contents") r1
  | _ => false

/-- Embeds `extractAbstractFromPdfText` (server.js). -/
def extractAbstractFromPdfText (text : List Char) : List Char :=
  let src := replaceCRLF text
  match findSuffix absHeadAt src with
  | none => []
  | some tail =>
    let tail2 := if (tail.takeWhile isJsWs).contains '\n' then tail.dropWhile isJsWs else tail
    let after0 :=
      match matchCI (jsStr "abstract") tail2 with
      | none => tail2
      | some r =>
        if (r.dropWhile isJsWs).head? == some ':' then (r.dropWhile isJsWs).tail
        else if (r.takeWhile isJsWs).contains '\n' then
          ((r.takeWhile isJsWs).reverse.takeWhile (· ≠ '\n')).reverse ++ r.dropWhile isJsWs
        else tail2
    let after := jsTrim after0
    let taken :=
      match searchIdxB stopHeadAt after with
      | none => after
      | some i => after.take i
    collapseWs (jsTrim taken)

/-- Embeds `String.prototype.split("\n")` (plain string split, keeping
empty pieces). -/
def splitOnNl : List Char → List (List Char)
  | [] => [[]]
  | c :: rest =>
    if c = '\n' then [] :: splitOnNl rest
    else
      match splitOnNl rest with
      | [] => [[c]]
      | p :: ps => (c :: p) :: ps

/-- ASCII uppercase letter (regex `[A-Z]`). -/
def isUpperAZ (c : Char) : Bool := decide ('A' ≤ c) && decide (c ≤ 'Z')

/-- ASCII lowercase letter (regex `[a-z]`). -/
def isLowerAZ (c : Char) : Bool := decide ('a' ≤ c) && decide (c ≤ 'z')

/-- Position match of `\b[A-Z][a-z]+\b` (the `\b` before is checked by
the scanning accumulator; shorter `[a-z]+` backtracks never help since the
boundary between two lowercase letters always fails). -/
def capWordAt (l : List Char) : Bool :=
  match l with
  | c :: rest =>
    isUpperAZ c &&
    (match rest with | d :: _ => isLowerAZ d | [] => false) &&
    wordBoundaryOk (rest.dropWhile isLowerAZ)
  | [] => false

/-- Scanning loop for `/\b[A-Z][a-z]+\b/`. -/
def hasCapWordGo : Bool → List Char → Bool
  | _, [] => false
  | prevOk, c :: rest => (prevOk && capWordAt (c :: rest)) || hasCapWordGo (!isWordChar c) rest

/-- Embeds `/,| and |\b[A-Z][a-z]+\b/.test(l)` of the authors-line filter. -/
def authorLineTest (l : List Char) : Bool :=
  l.contains ',' || containsSub (jsStr " and ") l || hasCapWordGo true l

/-- Embeds `/^abstract\b/i.test(l)`. -/
def startsAbstractCI (l : List Char) : Bool :=
  litThenBoundary (jsStr "abstract") l

/-- Embeds `guessTitleAuthorsFromPdfText` (server.js), returning
`(title, authors)`. -/
def guessTitleAuthorsFromPdfText (text : List Char) : List Char × List Char :=
  let lines := ((splitOnNl (replaceCRLF text)).map jsTrim).filter (· ≠ [])
  let titleCandidates :=
    ((lines.take 40).filter (fun l => 10 ≤ l.length && l.length ≤ 180)).filter
      (fun l => l.any Char.isAlpha)
  let title := titleCandidates.head?.getD (jsStr "Uploaded PDF")
  let authorWindow :=
    match lines.findIdx? (· == title) with
    | some i => (lines.drop (i + 1)).take 5
    | none => []
  let authorsLine :=
    authorWindow.find? (fun l => l.length ≤ 200 && authorLineTest l && !startsAbstractCI l)
  (if clampText title 400 = [] then jsStr "Uploaded PDF" else clampText title 400,
    clampText (authorsLine.getD []) 600)

/-- Match `LABEL:\s*` at the current position (the dynamic regex of
`parseLabeledPdfExtraction`), returning the text after the match. -/
def labelMatch (label : List Char) (l : List Char) : Option (List Char) :=
  match matchCI label l with
  | none => none
  | some r => if r.head? = some ':' then some (r.tail.dropWhile isJsWs) else none

/-- Scan for `(?:^|\n)LABEL:\s*` at positions after a newline. -/
def scanLabel (label : List Char) : List Char → Option (List Char)
  | [] => none
  | '\n' :: rest =>
    match labelMatch label rest with
    | some r => some r
    | none => scanLabel label rest
  | _ :: rest => scanLabel label rest

/-- Position match of `/\n\s*(?:TITLE|AUTHORS|ABSTRACT|SUMMARY)\s*:\s*/i`. -/
def nextLabelAt (l : List Char) : Bool :=
  match l with
  | '\n' :: r =>
    let r1 := r.dropWhile isJsWs
    (matchCI (jsStr "title") r1).elim false (fun r2 => (r2.dropWhile isJsWs).head? == some ':') ||
    (matchCI (jsStr "authors") r1).elim false (fun r2 => (r2.dropWhile isJsWs).head? == some ':') ||
    (matchCI (jsStr "abstract") r1).elim false (fun r2 => (r2.dropWhile isJsWs).head? == some ':') ||
    (matchCI (jsStr "summary") r1).elim false (fun r2 => (r2.dropWhile isJsWs).head? == some ':')
  | _ => false

/-- The `getBlock` closure of `parseLabeledPdfExtraction`. -/
def getBlock (label : List Char) (text : List Char) : List Char :=
  let found :=
    match labelMatch label text with
    | some r => some r
    | none => scanLabel label text
  match found with
  | none => []
  | some rest =>
    jsTrim
      (match searchIdxB nextLabelAt rest with
        | none => rest
        | some i => rest.take i)

/-- The labeled blocks recovered from the metadata-extraction response. -/
structure PdfMeta where
  title : List Char
  authors : List Char
  abstract : List Char
  summary : List Char

/-- Embeds `parseLabeledPdfExtraction` (server.js). -/
def parseLabeledPdfExtraction (raw : List Char) : PdfMeta :=
  let text := replaceCRLF raw
  ⟨getBlock (jsStr "title") text, getBlock (jsStr "authors") text,
    getBlock (jsStr "abstract") text, getBlock (jsStr "summary") text⟩

/-- The observable outcome of the PDF route: HTTP status, success flag,
error message, number of attempted LLM calls, and on success the
`(title, authors, abstract, simplifiedSummary)` of the response body. -/
structure PdfRouteOut where
  status : Nat
  success : Bool
  errorMsg : Option (List Char)
  llmCalls : Nat
  data : Option (List Char × List Char × List Char × List Char)
deriving DecidableEq

/-- The part of the route handler after the 200-character gate: the
metadata-extraction LLM call (its failure swallowed), the heuristic
fallbacks, the summarizer, and the storage step. -/
def simplifyPdfContinuation (text : List Char)
    (extraction first repair : Except (List Char) (List Char))
    (storedPdfUrl : Option (List Char)) : PdfRouteOut :=
  let meta :=
    match extraction with
    | .ok content =>
      let pm := parseLabeledPdfExtraction (jsTrim content)
      (clampText pm.title 400, clampText pm.authors 600, clampText pm.abstract 4000)
    | .error _ => ([], [], [])
  let guessed := guessTitleAuthorsFromPdfText text
  let title :=
    if meta.1 = [] ∨ meta.1 = jsStr "Uploaded PDF" then
      (if meta.1 = [] then guessed.1 else meta.1)
    else meta.1
  let authors :=
    if (meta.1 = [] ∨ meta.1 = jsStr "Uploaded PDF") ∧ meta.2.1 = [] then guessed.2
    else meta.2.1
  let abstract1 :=
    if meta.2.2 = [] then clampText (extractAbstractFromPdfText text) 4000 else meta.2.2
  let abstract :=
    if abstract1 = [] then clampText (collapseWs (text.take 1800)) 1800 else abstract1
  match simplifyPaperRun first repair with
  | (.error e, n) => ⟨500, false, some e, 1 + n, none⟩
  | (.ok summary, n) =>
    match storedPdfUrl with
    | none => ⟨500, false, some (jsStr "Failed to store uploaded PDF"), 1 + n, none⟩
    | some _ => ⟨200, true, none, 1 + n, some (title, authors, abstract, summary)⟩

/-- Embeds `POST /api/simplify/pdf` (server.js) from the parsed PDF text on:
normalize line endings, trim, reject texts shorter than 200 characters with
a 400 response and zero LLM calls, otherwise run the continuation. -/
def simplifyPdfRoute (rawText : List Char)
    (extraction first repair : Except (List Char) (List Char))
    (storedPdfUrl : Option (List Char)) : PdfRouteOut :=
  if (jsTrim (replaceCRLF rawText)).length < 200 then
    ⟨400, false, some (jsStr "Could not extract enough text from this PDF"), 0, none⟩
  else
    simplifyPdfContinuation (jsTrim (replaceCRLF rawText)) extraction first repair storedPdfUrl

/-! ## Claim C3 — abstract cleanliness across the Source Fetchers

Supporting lemmas: the tag stripper leaves no complete tag, whitespace
collapsing leaves no double whitespace, and both facts survive trimming. -/

/-- Every `<` in the list is either immediately followed by `>` (so the
tag pattern, which needs a nonempty interior, cannot match there) or by a
`>`-free tail.  `stripTagsF` establishes this, and it rules out any
complete-tag match. -/
def GoodOut (z : List Char) : Prop :=
  ∀ a b, z = a ++ '<' :: b → b.head? = some '>' ∨ '>' ∉ b

theorem mem_stripTagsF {x : Char} : ∀ fuel l, x ∈ stripTagsF fuel l → x ∈ l := by
  intro fuel
  induction fuel with
  | zero => intro l h; simp [stripTagsF] at h
  | succ n ih =>
    intro l h
    cases l with
    | nil => simp [stripTagsF] at h
    | cons c rest =>
      simp only [stripTagsF] at h
      split at h
      · split at h
        · rcases List.mem_cons.mp h with h | h
          · simp [h]
          · exact List.mem_cons_of_mem _ (ih _ h)
        · exact List.mem_cons_of_mem _ ((List.drop_sublist _ _).mem (ih _ h))
      · rcases List.mem_cons.mp h with h | h
        · simp [h]
        · exact List.mem_cons_of_mem _ (ih _ h)

theorem gtMem_of_takeWhile_lt :
    ∀ l : List Char, (l.takeWhile (· ≠ '>')).length < l.length → '>' ∈ l := by
  intro l
  induction l with
  | nil => intro h; simp at h
  | cons c cs ih =>
    intro h
    by_cases hc : c = '>'
    · simp [hc]
    · rw [List.takeWhile_cons_of_pos (by simpa using hc)] at h
      simp only [List.length_cons] at h
      exact List.mem_cons_of_mem _ (ih (by omega))

theorem notGtMem_of_takeWhile_len :
    ∀ l : List Char, (l.takeWhile (· ≠ '>')).length = l.length → '>' ∉ l := by
  intro l h
  have heq : l.takeWhile (· ≠ '>') = l :=
    (List.takeWhile_sublist _).eq_of_length h
  intro hmem
  have := List.mem_takeWhile_imp (heq ▸ hmem)
  simp at this

theorem goodOut_stripTagsF : ∀ fuel l, GoodOut (stripTagsF fuel l) := by
  intro fuel
  induction fuel with
  | zero => intro l a b h; simp [stripTagsF] at h
  | succ n ih =>
    intro l a b h
    cases l with
    | nil => simp [stripTagsF] at h
    | cons c rest =>
      simp only [stripTagsF] at h
      split at h
      · next hlt =>
        subst hlt
        split at h
        · next hcond =>
          have hcond' : rest.takeWhile (· ≠ '>') = [] ∨
              (rest.takeWhile (· ≠ '>')).length = rest.length := by
            simpa [List.isEmpty_iff] using hcond
          cases a with
          | nil =>
            simp only [List.nil_append, List.cons.injEq] at h
            have hb : stripTagsF n rest = b := h.2
            rcases hcond' with hempty | hlen
            · cases rest with
              | nil =>
                right
                intro hmem
                rw [← hb] at hmem
                cases n <;> simp [stripTagsF] at hmem
              | cons r rs =>
                have hr : r = '>' := by
                  by_cases hr : r = '>'
                  · exact hr
                  · rw [List.takeWhile_cons_of_pos (by simpa using hr)] at hempty
                    simp at hempty
                subst hr
                cases n with
                | zero =>
                  right
                  intro hmem
                  rw [← hb] at hmem
                  simp [stripTagsF] at hmem
                | succ m =>
                  left
                  rw [← hb]
                  simp [stripTagsF]
            · have hnot : '>' ∉ rest := notGtMem_of_takeWhile_len rest hlen
              right
              intro hmem
              rw [← hb] at hmem
              exact hnot (mem_stripTagsF _ _ hmem)
          | cons a0 a' =>
            simp only [List.cons_append, List.cons.injEq] at h
            exact ih rest a' b h.2
        · exact ih _ a b h
      · next hne =>
        cases a with
        | nil =>
          simp only [List.nil_append, List.cons.injEq] at h
          exact absurd h.1 hne
        | cons a0 a' =>
          simp only [List.cons_append, List.cons.injEq] at h
          exact ih rest a' b h.2

theorem mem_collapseWsGo {x : Char} :
    ∀ (l : List Char) (prev : Bool), x ∈ collapseWsGo prev l → x = ' ' ∨ x ∈ l := by
  intro l
  induction l with
  | nil => intro prev h; simp [collapseWsGo] at h
  | cons c rest ih =>
    intro prev h
    simp only [collapseWsGo] at h
    split at h
    · split at h
      · rcases ih true h with h | h
        · exact Or.inl h
        · exact Or.inr (List.mem_cons_of_mem _ h)
      · rcases List.mem_cons.mp h with h | h
        · exact Or.inl h
        · rcases ih true h with h | h
          · exact Or.inl h
          · exact Or.inr (List.mem_cons_of_mem _ h)
    · rcases List.mem_cons.mp h with h | h
      · exact Or.inr (by simp [h])
      · rcases ih false h with h | h
        · exact Or.inl h
        · exact Or.inr (List.mem_cons_of_mem _ h)

theorem collapseWsGo_decomp :
    ∀ (l : List Char) (prev : Bool) (a b : List Char),
      collapseWsGo prev l = a ++ '<' :: b →
      ∃ a' b', l = a' ++ '<' :: b' ∧ b = collapseWsGo false b' := by
  intro l
  induction l with
  | nil => intro prev a b h; simp [collapseWsGo] at h
  | cons c rest ih =>
    intro prev a b h
    simp only [collapseWsGo] at h
    split at h
    · next hws =>
      split at h
      · obtain ⟨a', b', hl, hb⟩ := ih true a b h
        exact ⟨c :: a', b', by simp [hl], hb⟩
      · cases a with
        | nil => simp at h
        | cons a0 a' =>
          simp only [List.cons_append, List.cons.injEq] at h
          obtain ⟨a'', b', hl, hb⟩ := ih true a' b h.2
          exact ⟨c :: a'', b', by simp [hl], hb⟩
    · next hws =>
      cases a with
      | nil =>
        simp only [List.nil_append, List.cons.injEq] at h
        exact ⟨[], rest, by simp [h.1], h.2.symm⟩
      | cons a0 a' =>
        simp only [List.cons_append, List.cons.injEq] at h
        obtain ⟨a'', b', hl, hb⟩ := ih false a' b h.2
        exact ⟨c :: a'', b', by simp [hl], hb⟩

theorem goodOut_collapseWsGo (z : List Char) (prev : Bool) (hz : GoodOut z) :
    GoodOut (collapseWsGo prev z) := by
  intro a b h
  obtain ⟨a', b', hl, hb⟩ := collapseWsGo_decomp z prev a b h
  rcases hz a' b' hl with hhead | hnot
  · left
    cases b' with
    | nil => simp at hhead
    | cons x r =>
      simp only [List.head?_cons, Option.some.injEq] at hhead
      subst hhead
      rw [hb]
      simp [collapseWsGo, isJsWs]
  · right
    intro hmem
    rw [hb] at hmem
    rcases mem_collapseWsGo _ _ hmem with hsp | hmem'
    · simp at hsp
    · exact hnot hmem'

theorem goodOut_append_left {s t : List Char} (h : GoodOut (s ++ t)) : GoodOut s := by
  intro a b hs
  have hst : s ++ t = a ++ '<' :: (b ++ t) := by rw [hs]; simp
  rcases h a (b ++ t) hst with hhead | hnot
  · cases b with
    | nil => right; simp
    | cons x r =>
      left
      simpa using hhead
  · right
    intro hmem
    exact hnot (by simp [hmem])

theorem goodOut_append_right {s t : List Char} (h : GoodOut (t ++ s)) : GoodOut s := by
  intro a b hs
  exact h (t ++ a) b (by rw [hs]; simp)

theorem jsTrimEnd_eq_append (m : List Char) : ∃ t, m = jsTrimEnd m ++ t := by
  refine ⟨(m.reverse.takeWhile isJsWs).reverse, ?_⟩
  conv_lhs =>
    rw [← m.reverse_reverse,
      ← List.takeWhile_append_dropWhile (p := isJsWs) (l := m.reverse)]
  rw [List.reverse_append]
  simp [jsTrimEnd]

theorem jsTrim_goodOut {l : List Char} (h : GoodOut l) : GoodOut (jsTrim l) := by
  have h1 : GoodOut (l.dropWhile isJsWs) := by
    have := List.takeWhile_append_dropWhile (p := isJsWs) (l := l)
    exact goodOut_append_right (this ▸ h)
  obtain ⟨t, ht⟩ := jsTrimEnd_eq_append (l.dropWhile isJsWs)
  exact goodOut_append_left (ht ▸ h1)

theorem containsTagB_decomp :
    ∀ x : List Char, containsTagB x = true →
      ∃ a rest, x = a ++ '<' :: rest ∧ (rest.takeWhile (· ≠ '>')) ≠ [] ∧
        (rest.takeWhile (· ≠ '>')).length < rest.length := by
  intro x
  induction x with
  | nil => intro h; simp [containsTagB] at h
  | cons c rest ih =>
    intro h
    simp only [containsTagB, Bool.or_eq_true, Bool.and_eq_true, beq_iff_eq,
      Bool.not_eq_true', List.isEmpty_eq_false, decide_eq_true_eq] at h
    rcases h with ⟨⟨hc, hne⟩, hlt⟩ | h
    · exact ⟨[], rest, by simp [hc], by simpa [List.isEmpty_iff] using hne, hlt⟩
    · obtain ⟨a, r, hx, hne, hlt⟩ := ih h
      exact ⟨c :: a, r, by simp [hx], hne, hlt⟩

theorem goodOut_no_tag {x : List Char} (h : GoodOut x) : containsTagB x = false := by
  cases hx : containsTagB x with
  | false => rfl
  | true =>
    exfalso
    obtain ⟨a, rest, hdec, hne, hlt⟩ := containsTagB_decomp x hx
    rcases h a rest hdec with hhead | hnot
    · cases rest with
      | nil => simp at hhead
      | cons r rs =>
        simp only [List.head?_cons, Option.some.injEq] at hhead
        subst hhead
        simp [List.takeWhile] at hne
    · exact hnot (gtMem_of_takeWhile_lt rest hlt)

theorem head_collapseWsGo_true :
    ∀ (l : List Char) (h : Char), (collapseWsGo true l).head? = some h →
      isJsWs h = false := by
  intro l
  induction l with
  | nil => intro h hh; simp [collapseWsGo] at hh
  | cons c rest ih =>
    intro h hh
    simp only [collapseWsGo] at hh
    split at hh
    · exact ih h hh
    · next hws =>
      simp only [List.head?_cons, Option.some.injEq] at hh
      subst hh
      simpa using hws

theorem hasDoubleWs_collapseWsGo :
    ∀ (l : List Char) (prev : Bool), hasDoubleWs (collapseWsGo prev l) = false := by
  intro l
  induction l with
  | nil => intro prev; simp [collapseWsGo, hasDoubleWs]
  | cons c rest ih =>
    intro prev
    simp only [collapseWsGo]
    split
    · split
      · exact ih true
      · cases hx : collapseWsGo true rest with
        | nil => simp [hasDoubleWs]
        | cons b r =>
          have hb : isJsWs b = false :=
            head_collapseWsGo_true rest b (by simp [hx])
          simp only [hasDoubleWs, hb, Bool.and_false, Bool.false_or]
          rw [← hx]
          exact ih true
    · next hws =>
      cases hx : collapseWsGo false rest with
      | nil => simp [hasDoubleWs]
      | cons b r =>
        have hc : isJsWs c = false := by simpa using hws
        simp only [hasDoubleWs, hc, Bool.false_and, Bool.false_or]
        rw [← hx]
        exact ih false

theorem hasDoubleWs_tail {c : Char} {l : List Char}
    (h : hasDoubleWs (c :: l) = false) : hasDoubleWs l = false := by
  cases l with
  | nil => simp [hasDoubleWs]
  | cons b r =>
    simp only [hasDoubleWs, Bool.or_eq_false_iff] at h
    exact h.2

theorem hasDoubleWs_append_left :
    ∀ (s t : List Char), hasDoubleWs (s ++ t) = false → hasDoubleWs s = false := by
  intro s
  induction s with
  | nil => intro t _; simp [hasDoubleWs]
  | cons a s' ih =>
    intro t h
    cases s' with
    | nil => simp [hasDoubleWs]
    | cons b s'' =>
      simp only [List.cons_append] at h
      have h2 : hasDoubleWs (b :: (s'' ++ t)) = false := hasDoubleWs_tail h
      have hab : (isJsWs a && isJsWs b) = false := by
        simp only [List.cons_append, hasDoubleWs, Bool.or_eq_false_iff] at h
        exact h.1
      have := ih t h2
      simp [hasDoubleWs, hab, this]

theorem hasDoubleWs_append_right :
    ∀ (t s : List Char), hasDoubleWs (t ++ s) = false → hasDoubleWs s = false := by
  intro t
  induction t with
  | nil => intro s h; simpa using h
  | cons c t' ih =>
    intro s h
    exact ih s (hasDoubleWs_tail (by simpa using h))

theorem hasDoubleWs_jsTrim {l : List Char} (h : hasDoubleWs l = false) :
    hasDoubleWs (jsTrim l) = false := by
  have h1 : hasDoubleWs (l.dropWhile isJsWs) = false := by
    have ht := List.takeWhile_append_dropWhile (p := isJsWs) (l := l)
    exact hasDoubleWs_append_right _ _ (ht ▸ h)
  obtain ⟨t, ht⟩ := jsTrimEnd_eq_append (l.dropWhile isJsWs)
  exact hasDoubleWs_append_left _ _ (ht ▸ h1)

/-- Claim C3, as stated, is false on the code: the PubMed fetcher keeps a
two-space run (it only merges newline pairs), and the ArXiv fetcher keeps
HTML markup (it only collapses whitespace). -/
theorem claim_C3_counterexample :
    hasDoubleWs (pubmedAbstract (jsStr "a  b")) = true ∧
    containsTagB (arxivAbstract (jsStr "<b>bold</b> claim")) = true := by
  constructor
  · decide
  · decide

/-- Claim C3 (amended): the ArXiv and Crossref fetchers return abstracts
with no whitespace run longer than one space, and the Crossref fetcher
additionally returns abstracts containing no complete HTML/XML tag
(`<`…`>` span); the PubMed fetcher guarantees neither. -/
theorem claim_C3_amended (upstream : List Char) :
    hasDoubleWs (arxivAbstract upstream) = false ∧
    hasDoubleWs (crossrefAbstract upstream) = false ∧
    containsTagB (crossrefAbstract upstream) = false := by
  refine ⟨?_, ?_, ?_⟩
  · exact hasDoubleWs_collapseWsGo _ _
  · exact hasDoubleWs_jsTrim (hasDoubleWs_collapseWsGo _ _)
  · exact goodOut_no_tag
      (jsTrim_goodOut (goodOut_collapseWsGo _ _ (goodOut_stripTagsF _ _)))

/-! ## Claims C9 and C10 — the ArXiv identifier extractor -/

theorem matchLit_append : ∀ lit rest : List Char, matchLit lit (lit ++ rest) = some rest := by
  intro lit
  induction lit with
  | nil => intro rest; simp [matchLit]
  | cons a as ih => intro rest; simp [matchLit, ih]

theorem takeWhile_all {p : Char → Bool} :
    ∀ l : List Char, (∀ c ∈ l, p c = true) → l.takeWhile p = l := by
  intro l
  induction l with
  | nil => intro _; simp
  | cons c rest ih =>
    intro h
    rw [List.takeWhile_cons_of_pos (h c (by simp))]
    rw [ih (fun x hx => h x (List.mem_cons_of_mem _ hx))]

theorem isDigitOrDot_ne_a {c : Char} (h : isDigitOrDot c = true) : ¬('a' = c) := by
  intro he
  rw [← he] at h
  simp [isDigitOrDot] at h

theorem scanLitCapture_none_digits (lit' : List Char) :
    ∀ l : List Char, (∀ c ∈ l, isDigitOrDot c = true) →
      scanLitCapture ('a' :: lit') l = none := by
  intro l
  induction l with
  | nil => intro _; simp [scanLitCapture]
  | cons c rest ih =>
    intro h
    have hc : ¬('a' = c) := isDigitOrDot_ne_a (h c (by simp))
    simp only [scanLitCapture, matchLit, if_neg hc]
    exact ih (fun x hx => h x (List.mem_cons_of_mem _ hx))

theorem scanLitCapture_here (lit : List Char) (rest : List Char)
    (hlit : lit ≠ []) (hcap : rest.takeWhile isDigitOrDot ≠ []) :
    scanLitCapture lit (lit ++ rest) = some (rest.takeWhile isDigitOrDot) := by
  cases lit with
  | nil => exact absurd rfl hlit
  | cons l0 lit' =>
    simp only [List.cons_append, scanLitCapture]
    rw [show matchLit (l0 :: lit') (l0 :: lit'.append rest) = some rest from
      matchLit_append (l0 :: lit') rest]
    simp [List.isEmpty_iff, hcap]

theorem isBare_parts (id : List Char) (h : isBareArxivId id = true) :
    ∃ a b c d rest, id = a :: b :: c :: d :: '.' :: rest ∧
      a.isDigit = true ∧ b.isDigit = true ∧ c.isDigit = true ∧ d.isDigit = true ∧
      (∀ x ∈ rest, x.isDigit = true) ∧ (rest.length = 4 ∨ rest.length = 5) := by
  unfold isBareArxivId at h
  split at h
  · next a b c d rest =>
    refine ⟨a, b, c, d, rest, rfl, ?_⟩
    simp only [Bool.and_eq_true, Bool.or_eq_true, decide_eq_true_eq] at h
    obtain ⟨⟨⟨⟨⟨ha, hb⟩, hc⟩, hd⟩, hall⟩, hlen⟩ := h
    exact ⟨ha, hb, hc, hd, fun x hx => (List.all_eq_true.mp hall) x hx, hlen⟩
  · exact absurd h (by simp)

theorem bareArxivAt_of_parts (a b c d : Char) (rest : List Char)
    (ha : a.isDigit = true) (hb : b.isDigit = true) (hc : c.isDigit = true)
    (hd : d.isDigit = true) (hall : ∀ x ∈ rest, x.isDigit = true)
    (hlen : rest.length = 4 ∨ rest.length = 5) :
    bareArxivAt (a :: b :: c :: d :: '.' :: rest) =
      some (a :: b :: c :: d :: '.' :: rest) := by
  have htw : rest.takeWhile Char.isDigit = rest := takeWhile_all rest hall
  have htk : rest.take 5 = rest := List.take_of_length_le (by omega)
  simp only [bareArxivAt, ha, hb, hc, hd, Bool.and_self, htw, htk]
  simp only [if_pos (by omega : 4 ≤ rest.length)]
  simp

theorem scanBare_append (pre : List Char) :
    ∀ tail r : List Char, bareArxivAt tail = some r →
      (scanBare (pre ++ tail)).isSome = true := by
  induction pre with
  | nil =>
    intro tail r h
    cases tail with
    | nil => simp [bareArxivAt] at h
    | cons c rest => simp [scanBare, h]
  | cons p pre' ih =>
    intro tail r h
    simp only [List.cons_append, scanBare]
    cases hb : bareArxivAt (p :: (pre' ++ tail)) with
    | some r2 => simp
    | none => exact ih tail r h

theorem takeWhile_digit_four (e f g h : Char) (post : List Char)
    (he : e.isDigit = true) (hf : f.isDigit = true) (hg : g.isDigit = true)
    (hh : h.isDigit = true) :
    4 ≤ (((e :: f :: g :: h :: post).takeWhile Char.isDigit).take 5).length := by
  rw [List.takeWhile_cons_of_pos he, List.takeWhile_cons_of_pos hf,
    List.takeWhile_cons_of_pos hg, List.takeWhile_cons_of_pos hh]
  simp [List.length_take]

theorem scanBare_of_hasBareSub {s : List Char} (h : HasBareSub s) :
    (scanBare s).isSome = true := by
  obtain ⟨pre, a, b, c, d, e, f, g, hch, post, hs, hdig⟩ := h
  simp only [Bool.and_eq_true] at hdig
  obtain ⟨⟨⟨⟨⟨⟨⟨ha, hb⟩, hc⟩, hd⟩, he⟩, hf⟩, hg⟩, hh⟩ := hdig
  subst hs
  have hbare : bareArxivAt ([a, b, c, d, '.', e, f, g, hch] ++ post) =
      some ([a, b, c, d, '.'] ++ ((e :: f :: g :: hch :: post).takeWhile Char.isDigit).take 5) := by
    have h4 := takeWhile_digit_four e f g hch post he hf hg hh
    simp only [List.cons_append, List.nil_append, bareArxivAt, ha, hb, hc, hd,
      Bool.and_self]
    simp only [if_pos h4]
    simp
  rw [List.append_assoc]
  exact scanBare_append pre _ _ hbare

/-- Claim C9, as stated, is false on the code: `1234.123456` is of the
spec's bare `NNNN.NNNNN[N]` form (six digits after the period), but the
bare-id pattern `[0-9]{4}\.[0-9]{4,5}` captures only the first five digits,
so the Normalizer does not return the identical id. -/
theorem claim_C9_counterexample :
    extractArxivId (jsStr "1234.123456") = some (jsStr "1234.12345") ∧
    (jsStr "1234.12345" == jsStr "1234.123456") = false := by
  constructor
  · rfl
  · decide

/-- Claim C9 (amended): for every id of the code's bare-id form
`NNNN.NNNN[N]` (four digits, a period, four or five digits), the Normalizer
returns exactly the identical id on all three input forms
`arxiv.org/abs/<id>`, `arxiv.org/pdf/<id>` and the bare `<id>`. -/
theorem claim_C9_amended (id : List Char) (h : isBareArxivId id = true) :
    extractArxivId (absLit ++ id) = some id ∧
    extractArxivId (pdfLit ++ id) = some id ∧
    extractArxivId id = some id := by
  obtain ⟨a, b, c, d, rest, hid, ha, hb, hc, hd, hall, hlen⟩ := isBare_parts id h
  have hmem : ∀ x ∈ id, isDigitOrDot x = true := by
    intro x hx
    rw [hid] at hx
    rcases List.mem_cons.mp hx with h | hx
    · simp [h, isDigitOrDot, ha]
    rcases List.mem_cons.mp hx with h | hx
    · simp [h, isDigitOrDot, hb]
    rcases List.mem_cons.mp hx with h | hx
    · simp [h, isDigitOrDot, hc]
    rcases List.mem_cons.mp hx with h | hx
    · simp [h, isDigitOrDot, hd]
    rcases List.mem_cons.mp hx with h | hx
    · simp [h, isDigitOrDot]
    · simp [isDigitOrDot, hall x hx]
  have hne : id ≠ [] := by rw [hid]; simp
  have htw : id.takeWhile isDigitOrDot = id := takeWhile_all id hmem
  have habs : scanLitCapture absLit (absLit ++ id) = some id := by
    rw [scanLitCapture_here absLit id (by simp [absLit, jsStr]) (by rw [htw]; exact hne)]
    rw [htw]
  have hpdf_self : scanLitCapture pdfLit (pdfLit ++ id) = some id := by
    rw [scanLitCapture_here pdfLit id (by simp [pdfLit, jsStr]) (by rw [htw]; exact hne)]
    rw [htw]
  have habs_on_pdf : scanLitCapture absLit (pdfLit ++ id) = none := by
    have hred : scanLitCapture absLit (pdfLit ++ id) = scanLitCapture absLit id := rfl
    rw [hred]
    exact scanLitCapture_none_digits _ id hmem
  have habs_on_bare : scanLitCapture absLit id = none :=
    scanLitCapture_none_digits _ id hmem
  have hpdf_on_bare : scanLitCapture pdfLit id = none :=
    scanLitCapture_none_digits _ id hmem
  have hbare : scanBare id = some id := by
    rw [hid]
    cases rest with
    | nil => simp at hlen
    | cons e rest' =>
      simp only [scanBare]
      rw [bareArxivAt_of_parts a b c d (e :: rest') ha hb hc hd hall hlen]
  refine ⟨?_, ?_, ?_⟩
  · simp [extractArxivId, habs]
  · simp [extractArxivId, habs_on_pdf, hpdf_self]
  · simp [extractArxivId, habs_on_bare, hpdf_on_bare, hbare]

/-- Witness for the amended claim C9 at the concrete id `1234.56789`. -/
theorem claim_C9_amended_witness :
    isBareArxivId (jsStr "1234.56789") = true ∧
    extractArxivId (absLit ++ jsStr "1234.56789") = some (jsStr "1234.56789") ∧
    extractArxivId (pdfLit ++ jsStr "1234.56789") = some (jsStr "1234.56789") ∧
    extractArxivId (jsStr "1234.56789") = some (jsStr "1234.56789") :=
  ⟨by decide, claim_C9_amended (jsStr "1234.56789") (by decide)⟩

/-- Claim C10: the Normalizer throws `Invalid ArXiv URL format` exactly
when none of its three patterns matches; every input containing four
digits, a period, and four(-or-five) digits anywhere succeeds; and the
result is the match of the first applicable pattern in the order abs URL,
pdf URL, bare id. -/
theorem claim_C10_first_pattern_wins :
    (∀ s, extractArxivId s = none ↔
      (scanLitCapture absLit s = none ∧ scanLitCapture pdfLit s = none ∧
        scanBare s = none)) ∧
    (∀ s, HasBareSub s → (extractArxivId s).isSome = true) ∧
    (∀ s r, scanLitCapture absLit s = some r → extractArxivId s = some r) ∧
    (∀ s r, scanLitCapture absLit s = none → scanLitCapture pdfLit s = some r →
      extractArxivId s = some r) ∧
    (∀ s, scanLitCapture absLit s = none → scanLitCapture pdfLit s = none →
      extractArxivId s = scanBare s) := by
  have hunf : ∀ s, extractArxivId s =
      (match scanLitCapture absLit s with
        | some r => some r
        | none =>
          match scanLitCapture pdfLit s with
          | some r => some r
          | none => scanBare s) := fun s => rfl
  refine ⟨?_, ?_, ?_, ?_, ?_⟩
  · intro s
    rw [hunf]
    cases ha : scanLitCapture absLit s <;> cases hp : scanLitCapture pdfLit s <;>
      simp
  · intro s hsub
    rw [hunf]
    cases ha : scanLitCapture absLit s <;> cases hp : scanLitCapture pdfLit s <;>
      simp only []
    · exact scanBare_of_hasBareSub hsub
    all_goals simp
  · intro s r ha
    rw [hunf, ha]
  · intro s r ha hp
    rw [hunf, ha, hp]
  · intro s ha hp
    rw [hunf, ha, hp]

/-- Witness for claim C10 at a DOI-like input that is not an ArXiv
reference but contains `2301.00001`. -/
theorem claim_C10_first_pattern_wins_witness :
    (extractArxivId (jsStr "10.48550/arXiv.2301.00001")).isSome = true :=
  claim_C10_first_pattern_wins.2.1 (jsStr "10.48550/arXiv.2301.00001")
    ⟨jsStr "10.48550/arXiv.", '2', '3', '0', '1', '0', '0', '0', '0', jsStr "1",
      by decide, by decide⟩

/-! ## Claim C5 — shape of the Q&A sources array -/

theorem jsTrimEnd_length_le (l : List Char) : (jsTrimEnd l).length ≤ l.length := by
  simp only [jsTrimEnd, List.length_reverse]
  simpa using (List.dropWhile_sublist (l := l.reverse) isJsWs).length_le

theorem truncateQaText_length_le (t : List Char) : (truncateQaText t).length ≤ 220 := by
  unfold truncateQaText
  split
  · next hgt =>
    have h1 : (jsTrimEnd (t.take 217)).length ≤ (t.take 217).length :=
      jsTrimEnd_length_le _
    have h2 : (t.take 217).length ≤ 217 := by simp [List.length_take]
    simp only [List.length_append, List.length_cons, List.length_nil]
    omega
  · next hle => omega

theorem pickLoop_eq_map :
    ∀ (l : List ScoredCand) (seen : List (List Char)) (slots : Nat),
      pickLoop l seen slots =
        (pickLoopCands l seen slots).map
          (fun it => ⟨it.cand.label, truncateQaText it.cand.text⟩) := by
  intro l
  induction l with
  | nil => intro seen slots; simp [pickLoop, pickLoopCands]
  | cons it rest ih =>
    intro seen slots
    simp only [pickLoop, pickLoopCands]
    split
    · simp
    · split
      · exact ih seen slots
      · simp [ih]

theorem pickLoopCands_length_le :
    ∀ (l : List ScoredCand) (seen : List (List Char)) (slots : Nat),
      (pickLoopCands l seen slots).length ≤ slots := by
  intro l
  induction l with
  | nil => intro seen slots; simp [pickLoopCands]
  | cons it rest ih =>
    intro seen slots
    simp only [pickLoopCands]
    split
    · simp
    · next hslots =>
      split
      · exact ih seen slots
      · simp only [List.length_cons]
        have := ih (normForDedup it.cand.text :: seen) (slots - 1)
        omega

theorem pickLoopCands_fresh :
    ∀ (l : List ScoredCand) (seen : List (List Char)) (slots : Nat),
      (∀ x ∈ pickLoopCands l seen slots, normForDedup x.cand.text ∉ seen) ∧
      List.Pairwise (fun a b => normForDedup a.cand.text ≠ normForDedup b.cand.text)
        (pickLoopCands l seen slots) := by
  intro l
  induction l with
  | nil => intro seen slots; simp [pickLoopCands]
  | cons it rest ih =>
    intro seen slots
    simp only [pickLoopCands]
    split
    · simp
    · split
      · exact ih seen slots
      · next hcontains =>
        have hfresh : normForDedup it.cand.text ∉ seen := by
          simpa using (by simpa using hcontains : seen.contains (normForDedup it.cand.text) = false)
        obtain ⟨hnotin, hpw⟩ := ih (normForDedup it.cand.text :: seen) (slots - 1)
        constructor
        · intro x hx
          rcases List.mem_cons.mp hx with hx | hx
          · rw [hx]; exact hfresh
          · exact fun hmem => hnotin x hx (List.mem_cons_of_mem _ hmem)
        · refine List.Pairwise.cons ?_ hpw
          intro x hx heq
          exact hnotin x hx (by rw [← heq]; exact List.mem_cons_self _ _)

/-- Claim C5, as stated, is false on the code: deduplication happens before
truncation, so two distinct long candidates agreeing on their first 217
characters yield two entries with the same normalized text. -/
def qaCollisionPaper : QaPaper :=
  ⟨none, some ((jsStr "quantum " ++ List.replicate 222 'x') ++
    '\n' :: ((jsStr "quantum " ++ List.replicate 222 'x') ++ jsStr "yy"))⟩

/-- Boolean check that no two entries share the same normalized text. -/
def qaDistinctNormB : List QaSource → Bool
  | [] => true
  | e :: rest =>
    !(rest.any (fun e2 => normForDedup e2.text == normForDedup e.text)) &&
      qaDistinctNormB rest

set_option maxRecDepth 20000 in
/-- Claim C5's no-duplicate clause fails at this concrete question/paper:
the result has two entries whose normalized texts coincide (both are the
same 218-character truncation). -/
theorem claim_C5_counterexample :
    (buildQaSources (jsStr "quantum") qaCollisionPaper).length = 2 ∧
    qaDistinctNormB (buildQaSources (jsStr "quantum") qaCollisionPaper) = false := by
  constructor
  · decide
  · decide

/-- Claim C5 (amended): the Q&A sources result always has at most 3 entries
of at most 220 characters each (truncated entries are at most 218: 217
characters trimmed plus an ellipsis); the entries come from candidates that
are pairwise distinct under normalization *before* truncation, and each
entry is the truncation of its candidate — so entries may coincide after
truncation, as the counterexample shows. -/
theorem claim_C5_amended (question : List Char) (p : QaPaper) :
    (buildQaSources question p).length ≤ 3 ∧
    ((buildQaSources question p).all fun e => decide (e.text.length ≤ 220)) = true ∧
    List.Pairwise (fun a b => normForDedup a.cand.text ≠ normForDedup b.cand.text)
      (pickedCandidates question p) ∧
    buildQaSources question p =
      (pickedCandidates question p).map
        (fun it => ⟨it.cand.label, truncateQaText it.cand.text⟩) := by
  unfold buildQaSources pickedCandidates
  split
  · simp
  · refine ⟨?_, ?_, ?_, ?_⟩
    · rw [pickLoop_eq_map]
      simpa using pickLoopCands_length_le (scoredCandidates question p) [] 3
    · rw [pickLoop_eq_map]
      rw [List.all_eq_true]
      intro e he
      obtain ⟨it, _, heq⟩ := List.mem_map.mp he
      rw [← heq]
      simpa using truncateQaText_length_le it.cand.text
    · exact (pickLoopCands_fresh (scoredCandidates question p) [] 3).2
    · exact pickLoop_eq_map _ _ _

/-! ## Claim C6 — the lexical-overlap scoring formula -/

theorem max8_sqrt_eq (n : Nat) :
    max (8 : ℝ) (Real.sqrt n) = Real.sqrt (max 64 n : Nat) := by
  have h8 : (8 : ℝ) = Real.sqrt 64 := by
    rw [show (64 : ℝ) = 8 ^ 2 by norm_num, Real.sqrt_sq (by norm_num)]
  rcases le_total (n : ℝ) 64 with h | h
  · have hn : n ≤ 64 := by exact_mod_cast h
    have hs : Real.sqrt n ≤ 8 := by
      rw [h8]; exact Real.sqrt_le_sqrt h
    rw [max_eq_left hs, show max 64 n = 64 from by omega, h8]
    norm_num
  · have hn : 64 ≤ n := by exact_mod_cast h
    have hs : 8 ≤ Real.sqrt n := by
      rw [h8]; exact Real.sqrt_le_sqrt h
    rw [max_eq_right hs, show max 64 n = n from by omega]

theorem sqrt_max64_pos (n : Nat) : 0 < Real.sqrt (max 64 n : Nat) := by
  apply Real.sqrt_pos.mpr
  have h : 0 < max 64 n := by omega
  exact_mod_cast h

theorem scoreGeB_iff_real (x y : ScoredCand) :
    scoreGeB x y = true ↔
      (y.overlap : ℝ) / max 8 (Real.sqrt y.tokenCount) ≤
        (x.overlap : ℝ) / max 8 (Real.sqrt x.tokenCount) := by
  rw [max8_sqrt_eq, max8_sqrt_eq]
  rw [div_le_div_iff₀ (sqrt_max64_pos _) (sqrt_max64_pos _)]
  have hx : ((x.overlap : ℝ)) * Real.sqrt (max 64 y.tokenCount : Nat) =
      Real.sqrt ((x.overlap : ℝ) ^ 2 * (max 64 y.tokenCount : Nat)) := by
    rw [Real.sqrt_mul (sq_nonneg _), Real.sqrt_sq (by positivity)]
  have hy : ((y.overlap : ℝ)) * Real.sqrt (max 64 x.tokenCount : Nat) =
      Real.sqrt ((y.overlap : ℝ) ^ 2 * (max 64 x.tokenCount : Nat)) := by
    rw [Real.sqrt_mul (sq_nonneg _), Real.sqrt_sq (by positivity)]
  rw [hx, hy, Real.sqrt_le_sqrt_iff (by positivity)]
  unfold scoreGeB
  rw [decide_eq_true_iff]
  constructor
  · intro h
    have := (Nat.cast_le (α := ℝ)).mpr h
    push_cast at this
    convert this using 2 <;> simp [Nat.cast_max]
  · intro h
    have h2 : ((y.overlap ^ 2 * max 64 x.tokenCount : Nat) : ℝ) ≤
        ((x.overlap ^ 2 * max 64 y.tokenCount : Nat) : ℝ) := by
      push_cast
      convert h using 2 <;> simp [Nat.cast_max]
    exact_mod_cast h2

theorem realScore_pos_iff (x : ScoredCand) :
    0 < (x.overlap : ℝ) / max 8 (Real.sqrt x.tokenCount) ↔ 0 < x.overlap := by
  rw [max8_sqrt_eq]
  rw [div_pos_iff]
  constructor
  · rintro (⟨h, _⟩ | ⟨_, hneg⟩)
    · exact_mod_cast h
    · exact absurd hneg (not_lt.mpr (le_of_lt (sqrt_max64_pos _)))
  · intro h
    exact Or.inl ⟨by exact_mod_cast h, sqrt_max64_pos _⟩

theorem scoreGeB_total (x y : ScoredCand) (h : scoreGeB x y = false) :
    scoreGeB y x = true := by
  unfold scoreGeB at *
  rw [decide_eq_false_iff_not] at h
  rw [decide_eq_true_iff]
  omega

theorem chain'_insertScoredDesc (x : ScoredCand) :
    ∀ l, List.Chain' (fun a b => scoreGeB a b = true) l →
      List.Chain' (fun a b => scoreGeB a b = true) (insertScoredDesc x l) := by
  intro l
  induction l with
  | nil => intro _; simp [insertScoredDesc]
  | cons y ys ih =>
    intro h
    simp only [insertScoredDesc]
    split
    · next hxy => exact List.Chain'.cons hxy h
    · next hxy =>
      rw [List.chain'_cons']
      refine ⟨?_, ih (List.chain'_cons'.mp h).2⟩
      intro z hz
      cases ys with
      | nil =>
        simp [insertScoredDesc] at hz
        rw [← hz]
        exact scoreGeB_total x y (by simpa using hxy)
      | cons w ws =>
        simp only [insertScoredDesc] at hz
        split at hz
        · simp only [List.head?_cons, Option.mem_def, Option.some.injEq] at hz
          rw [← hz]
          exact scoreGeB_total x y (by simpa using hxy)
        · simp only [List.head?_cons, Option.mem_def, Option.some.injEq] at hz
          rw [← hz]
          exact (List.chain'_cons'.mp h).1 w (by simp)

theorem chain'_sortScoredDesc (l : List ScoredCand) :
    List.Chain' (fun a b => scoreGeB a b = true) (sortScoredDesc l) := by
  induction l with
  | nil => simp [sortScoredDesc]
  | cons x xs ih => exact chain'_insertScoredDesc x _ ih

theorem perm_insertScoredDesc (x : ScoredCand) :
    ∀ l, (insertScoredDesc x l).Perm (x :: l) := by
  intro l
  induction l with
  | nil => simp [insertScoredDesc]
  | cons y ys ih =>
    simp only [insertScoredDesc]
    split
    · exact List.Perm.refl _
    · exact (ih.cons y).trans (List.Perm.swap x y ys)

theorem perm_sortScoredDesc (l : List ScoredCand) : (sortScoredDesc l).Perm l := by
  induction l with
  | nil => simp [sortScoredDesc]
  | cons x xs ih => exact (perm_insertScoredDesc x _).trans (ih.cons x)

/-- Claim C6: the exact comparison `scoreGeB` used by the embedding agrees
with the JS score formula `overlap / max(8, sqrt(tokenCount))` read over
the reals; a score is positive exactly when the overlap count is; and the
scored candidate list of `buildQaSources` is a permutation of the
zero-score-discarded candidate pool arranged in descending real-score
order.  (`scoreCand` computes `overlap` as the number of candidate tokens —
length-≥3 lowercase alphanumeric-or-hyphen tokens — that occur among the
question tokens, and `tokenCount` as the candidate's token count.) -/
theorem claim_C6_score_formula :
    (∀ x y : ScoredCand, scoreGeB x y = true ↔
      (y.overlap : ℝ) / max 8 (Real.sqrt y.tokenCount) ≤
        (x.overlap : ℝ) / max 8 (Real.sqrt x.tokenCount)) ∧
    (∀ x : ScoredCand,
      0 < (x.overlap : ℝ) / max 8 (Real.sqrt x.tokenCount) ↔ 0 < x.overlap) ∧
    (∀ question p, List.Chain'
      (fun a b => (b.overlap : ℝ) / max 8 (Real.sqrt b.tokenCount) ≤
        (a.overlap : ℝ) / max 8 (Real.sqrt a.tokenCount))
      (scoredCandidates question p)) ∧
    (∀ question p, (scoredCandidates question p).Perm
      (((candidatesOf p).map (scoreCand (tokenizeForQa question))).filter
        (fun sc => 0 < sc.overlap))) := by
  refine ⟨scoreGeB_iff_real, realScore_pos_iff, ?_, ?_⟩
  · intro question p
    have h := chain'_sortScoredDesc
      (((candidatesOf p).map (scoreCand (tokenizeForQa question))).filter
        (fun sc => 0 < sc.overlap))
    exact h.imp (fun a b hab => (scoreGeB_iff_real a b).mp hab)
  · intro question p
    exact perm_sortScoredDesc _

/-! ## Claim C1 — Summarizer repair-failure semantics -/

/-- Claim C1, as stated, is false on the code: in `simplifyPaper` the
repair call sits inside the same `try` as the first call, so at this
concrete input (a first response with no Key Terms heading, a failing
repair call) the summarize call fails with `Failed to generate summary:`
instead of returning the first summary without key terms. -/
theorem claim_C1_counterexample :
    simplifyPaperRun (.ok (jsStr "The Problem: none of the sections follow."))
        (.error (jsStr "rate limited")) =
      (.error (jsStr "Failed to generate summary: rate limited"), 2) := by
  rfl

/-- Claim C1 (amended): if the conditional Key-Terms repair LLM call fails,
that failure is not retried (exactly two LLM calls are attempted), and the
whole summarize call fails with `SummarizationFailed`
(`Failed to generate summary:` carrying the upstream message); the first
summary is not returned. -/
theorem claim_C1_amended (raw msg : List Char)
    (h : testKeyTerms (normalizeKT (jsTrim raw)) = false) :
    simplifyPaperRun (.ok raw) (.error msg) =
      (.error (jsStr "Failed to generate summary: " ++ msg), 2) := by
  simp only [simplifyPaperRun, h]
  simp

/-- Witness for the amended claim C1 at a concrete input. -/
theorem claim_C1_amended_witness :
    testKeyTerms (normalizeKT (jsTrim (jsStr "Plain body text."))) = false ∧
    simplifyPaperRun (.ok (jsStr "Plain body text.")) (.error (jsStr "boom")) =
      (.error (jsStr "Failed to generate summary: boom"), 2) :=
  ⟨by decide, claim_C1_amended (jsStr "Plain body text.") (jsStr "boom") (by decide)⟩

/-! ## Claim C2 — style-conditional repair call -/

/-- Claim C2: for `style = tldr` the Summarizer never issues the Key-Terms
repair call (whatever the two oracles return), and for every other style it
issues the repair call exactly when the (normalized, trimmed) first
response contains no recognizable Key Terms heading. -/
theorem claim_C2_styled_repair :
    (∀ first repair, (simplifyPaperStyledRun .tldr first repair).2 = false) ∧
    (∀ (style : SummaryStyle) (repair : Except (List Char) (List Char)) (raw : List Char),
      style ≠ .tldr →
      ((simplifyPaperStyledRun style (.ok raw) repair).2 = true ↔
        testKeyTerms (normalizeKT (jsTrim raw)) = false)) := by
  constructor
  · intro first repair
    cases first with
    | error e => rfl
    | ok raw => simp [simplifyPaperStyledRun]
  · intro style repair raw hs
    have hb : (style == SummaryStyle.tldr) = false := by
      cases style <;> simp_all
    cases h : testKeyTerms (normalizeKT (jsTrim raw)) with
    | true => simp [simplifyPaperStyledRun, hb, h]
    | false =>
      cases repair with
      | error e => simp [simplifyPaperStyledRun, hb, h]
      | ok kraw => simp [simplifyPaperStyledRun, hb, h]

/-- Witness for claim C2 at concrete inputs: `tldr` skips the repair even
when the heading is missing; `simple` issues it. -/
theorem claim_C2_styled_repair_witness :
    (simplifyPaperStyledRun .tldr (.ok (jsStr "Plain body text."))
        (.error (jsStr "x"))).2 = false ∧
    (simplifyPaperStyledRun .simple (.ok (jsStr "Plain body text."))
        (.error (jsStr "x"))).2 = true :=
  ⟨claim_C2_styled_repair.1 _ _,
    (claim_C2_styled_repair.2 .simple (.error (jsStr "x")) (jsStr "Plain body text.")
      (by decide)).mpr (by decide)⟩

/-! ## Claim C4 — fetcher error mapping for non-2xx, non-404 statuses -/

/-- Claim C4, as stated, is false on the code: the PubMed fetcher's error
for a 500 upstream response is the fixed string `PubMed API error`, which
does not carry the status. -/
theorem claim_C4_counterexample :
    pubmedFetchError 500 = some (jsStr "PubMed API error") ∧
    containsSub (jsStr "500") (jsStr "PubMed API error") = false := by
  constructor
  · rfl
  · decide

/-- Claim C4 (amended): for every non-2xx, non-404 status, the Crossref and
Semantic Scholar fetchers throw an error whose message carries the upstream
HTTP status (with no retry — the model is single-shot); the PubMed fetcher
instead throws the fixed `PubMed API error` without the status. -/
theorem claim_C4_amended (status : Nat) (hok : httpOk status = false)
    (h404 : status ≠ 404) :
    (crossrefFetchError status =
        some (jsStr "Crossref API error: " ++ (toString status).data) ∧
      containsSub ((toString status).data)
        (jsStr "Crossref API error: " ++ (toString status).data) = true) ∧
    (semanticScholarFetchError status =
        some (jsStr "Semantic Scholar API error: " ++ (toString status).data) ∧
      containsSub ((toString status).data)
        (jsStr "Semantic Scholar API error: " ++ (toString status).data) = true) ∧
    pubmedFetchError status = some (jsStr "PubMed API error") := by
  have hsfx : ∀ pre : List Char, ((toString status).data <:+: pre ++ (toString status).data) :=
    fun pre => (List.suffix_append pre (toString status).data).isInfix
  refine ⟨⟨?_, ?_⟩, ⟨?_, ?_⟩, ?_⟩
  · simp [crossrefFetchError, hok, h404]
  · simpa [containsSub] using hsfx (jsStr "Crossref API error: ")
  · simp [semanticScholarFetchError, hok, h404]
  · simpa [containsSub] using hsfx (jsStr "Semantic Scholar API error: ")
  · simp [pubmedFetchError, hok]

/-- Witness for the amended claim C4 at status 503. -/
theorem claim_C4_amended_witness :
    (crossrefFetchError 503 =
        some (jsStr "Crossref API error: " ++ (toString 503).data) ∧
      containsSub ((toString 503).data)
        (jsStr "Crossref API error: " ++ (toString 503).data) = true) ∧
    (semanticScholarFetchError 503 =
        some (jsStr "Semantic Scholar API error: " ++ (toString 503).data) ∧
      containsSub ((toString 503).data)
        (jsStr "Semantic Scholar API error: " ++ (toString 503).data) = true) ∧
    pubmedFetchError 503 = some (jsStr "PubMed API error") :=
  claim_C4_amended 503 (by decide) (by decide)

/-! ## Claim C7 — empty question tokenization -/

/-- Claim C7: when the question tokenizes to no token of length at least 3,
the Q&A sources are the empty array for every paper (the scorer is never
reached: `buildQaSources` returns before scoring). -/
theorem claim_C7_empty_tokens (question : List Char) (p : QaPaper)
    (h : tokenizeForQa question = []) :
    buildQaSources question p = [] := by
  simp [buildQaSources, h]

/-- An arbitrary concrete paper used by witnesses. -/
def qaExamplePaper : QaPaper :=
  ⟨some (jsStr "An abstract about entanglement."),
    some (jsStr "A summary line that is longer than forty characters, yes.")⟩

/-- Witness for claim C7 at `question = "? ? ?"`. -/
theorem claim_C7_empty_tokens_witness :
    tokenizeForQa (jsStr "? ? ?") = [] ∧
    buildQaSources (jsStr "? ? ?") qaExamplePaper = [] :=
  ⟨by decide, claim_C7_empty_tokens (jsStr "? ? ?") qaExamplePaper (by decide)⟩

/-! ## Claim C8 — short PDF text fails early with no LLM call -/

theorem replaceCRLF_length_le : ∀ l : List Char, (replaceCRLF l).length ≤ l.length := by
  intro l
  induction l using replaceCRLF.induct
  all_goals simp_all [replaceCRLF]
  all_goals omega

theorem jsTrim_length_le (l : List Char) : (jsTrim l).length ≤ l.length := by
  have h1 : (l.dropWhile isJsWs).length ≤ l.length := (List.dropWhile_sublist _).length_le
  have h2 : (jsTrimEnd (l.dropWhile isJsWs)).length ≤ (l.dropWhile isJsWs).length := by
    simp only [jsTrimEnd, List.length_reverse]
    simpa using (List.dropWhile_sublist (l := (l.dropWhile isJsWs).reverse) isJsWs).length_le
  exact le_trans h2 h1

/-- Claim C8: for every uploaded PDF whose extracted text is shorter than
200 characters, the route fails with the 400 `UnreadablePdf` response
(`Could not extract enough text from this PDF`) and attempts no LLM call,
whatever the LLM oracles and the storage layer would have returned. -/
theorem claim_C8_short_pdf (rawText : List Char)
    (extraction first repair : Except (List Char) (List Char))
    (storedPdfUrl : Option (List Char)) (h : rawText.length < 200) :
    simplifyPdfRoute rawText extraction first repair storedPdfUrl =
      ⟨400, false, some (jsStr "Could not extract enough text from this PDF"),
        0, none⟩ := by
  have hlt : (jsTrim (replaceCRLF rawText)).length < 200 :=
    lt_of_le_of_lt (le_trans (jsTrim_length_le _) (replaceCRLF_length_le _)) h
  simp [simplifyPdfRoute, hlt]

/-- Witness for claim C8 at a concrete nine-character input. -/
theorem claim_C8_short_pdf_witness :
    (jsStr "too short").length < 200 ∧
    simplifyPdfRoute (jsStr "too short") (.ok []) (.ok []) (.ok [])
        (some (jsStr "u")) =
      ⟨400, false, some (jsStr "Could not extract enough text from this PDF"),
        0, none⟩ :=
  ⟨by decide, claim_C8_short_pdf (jsStr "too short") (.ok []) (.ok []) (.ok [])
    (some (jsStr "u")) (by decide)⟩

end PaperPlain
